import Mathlib

/-!
Verification of the btoa binary-to-assembly converter (src/main.c).

The development shallowly embeds the program: the dialect table
(`lang_specs`, `lookup_lang_spec`), the emitter (`convert`, modelling each
`fprintf` call as one write against an optional write budget, and the input
stream as a list of bytes optionally terminated by a read error), the
filename sanitization (`str_repl_char`), the `cleanup` routine, and a trace
model of `main` (`mainModel`).
-/

/-- Dialect profile, mirroring `struct lang_spec` in src/main.c.  The C field
`def` is spelled `defn` here because `def` is a Lean keyword. -/
structure LangSpec where
  name : String
  defn : String
  diff : String
  glob_pre : String
  glob_post : String
deriving DecidableEq, Repr

/-- The fixed dialect table `lang_specs` from src/main.c (the NULL sentinel
becomes the end of the list). -/
def lang_specs : List LangSpec :=
  [⟨"nasm", "db", "dd $-", "[GLOBAL ", "]"⟩,
   ⟨"fasm", "db", "dd $-", "global ", ""⟩,
   ⟨"as", ".byte", ".long .-", ".globl ", ""⟩]

/-- `lookup_lang_spec` from src/main.c: first entry whose name compares equal
to the query (`strcmp == 0`), or none. -/
def lookup_lang_spec (name : String) : Option LangSpec :=
  lang_specs.find? (fun lang => lang.name == name)

/-- `ELEMS_PER_LINE` from src/main.c. -/
def ELEMS_PER_LINE : Nat := 8

/-- Lowercase hex digit for a value below 16, as produced by `printf "%x"`. -/
def hexDigitChar (n : Nat) : Char :=
  if n < 10 then Char.ofNat (48 + n) else Char.ofNat (87 + n)

/-- Fuel-driven most-significant-first hex digit list of `n` (empty for 0). -/
def hexDigitsFuel : Nat → Nat → List Char
  | 0, _ => []
  | _ + 1, 0 => []
  | fuel + 1, n => hexDigitsFuel fuel (n / 16) ++ [hexDigitChar (n % 16)]

/-- The text `printf "%x"` produces for a nonnegative value: lowercase hex
digits, no leading zeros, a single `0` for zero. -/
def hexStr (n : Nat) : String :=
  if n = 0 then "0" else String.mk (hexDigitsFuel n n)

/-- The byte literal emitted by `fprintf(out, "0x%x", byte)` in `convert`. -/
def byteLit (b : Nat) : String := "0x" ++ hexStr b

/-- The text written before a byte literal: `",\t"` when
`*count && (*count % ELEMS_PER_LINE)`, else `"\n" ++ lang->def ++ "\t"`
(src/main.c lines 174-178). -/
def sepFor (lang : LangSpec) (count : Nat) : String :=
  if count ≠ 0 ∧ count % ELEMS_PER_LINE ≠ 0 then ",\t"
  else "\n" ++ lang.defn ++ "\t"

/-- Output stream state: text written so far, plus an optional write budget.
`budget = none` means every write succeeds; `budget = some k` means the next
`k` writes succeed and all later ones fail (modelling `fprintf < 0`). -/
structure OutSt where
  written : String
  budget : Option Nat
deriving DecidableEq, Repr

/-- One `fprintf` call: appends the text and reports success, or fails
writing nothing once the budget is exhausted. -/
def wr (st : OutSt) (s : String) : OutSt × Bool :=
  match st.budget with
  | none => (⟨st.written ++ s, none⟩, true)
  | some 0 => (st, false)
  | some (k + 1) => (⟨st.written ++ s, some k⟩, true)

/-- Result of `convert`: the C return value (0 / -1 / -2), the exported
`*count`, and the final output-stream state. -/
structure CRes where
  ret : Int
  count : Nat
  st : OutSt
deriving DecidableEq, Repr

/-- Text of `fprintf(out, "%s%s_file%s\n", lang->glob_pre, ident, lang->glob_post)`. -/
def dataExport (lang : LangSpec) (ident : String) : String :=
  lang.glob_pre ++ ident ++ "_file" ++ lang.glob_post ++ "\n"

/-- Text of `fprintf(out, "%s_file:\n", ident)`. -/
def dataLabel (ident : String) : String := ident ++ "_file:\n"

/-- Text of `fprintf(out, "\n\n%s%s_file_size%s\n", ...)`. -/
def sizeExport (lang : LangSpec) (ident : String) : String :=
  "\n\n" ++ lang.glob_pre ++ ident ++ "_file_size" ++ lang.glob_post ++ "\n"

/-- Text of `fprintf(out, "%s_file_size: %s%s_file\n", ident, lang->diff, ident)`. -/
def sizeLabel (lang : LangSpec) (ident : String) : String :=
  ident ++ "_file_size: " ++ lang.diff ++ ident ++ "_file\n"

/-- The byte loop of `convert` (src/main.c lines 163-187).  The remaining
input is a byte list; `inErr` tells whether the stream ends in a read error
(`ferror`) instead of clean EOF (`feof`).  For each byte the separator and
the literal are written by two `fprintf` calls; `count` is incremented only
after both succeeded. -/
def convertLoop (lang : LangSpec) : List Nat → Bool → Nat → OutSt → CRes
  | [], inErr, count, st => ⟨if inErr then -1 else 0, count, st⟩
  | b :: rest, inErr, count, st =>
    let p1 := wr st (sepFor lang count)
    if p1.2 then
      let p2 := wr p1.1 (byteLit b)
      if p2.2 then convertLoop lang rest inErr (count + 1) p2.1
      else ⟨-2, count, p2.1⟩
    else ⟨-2, count, p1.1⟩

/-- `convert` from src/main.c: header (export directive and data label), the
byte loop, then footer (size export directive and size label).  Returns 0 on
success, -1 on read error, -2 on write error, aborting at the first failure. -/
def convert (lang : LangSpec) (ident : String) (bytes : List Nat)
    (inErr : Bool) (st0 : OutSt) : CRes :=
  let p1 := wr st0 (dataExport lang ident)
  if ¬ p1.2 then ⟨-2, 0, p1.1⟩ else
  let p2 := wr p1.1 (dataLabel ident)
  if ¬ p2.2 then ⟨-2, 0, p2.1⟩ else
  let r := convertLoop lang bytes inErr 0 p2.1
  if r.ret ≠ 0 then r else
  let p3 := wr r.st (sizeExport lang ident)
  if ¬ p3.2 then ⟨-2, r.count, p3.1⟩ else
  let p4 := wr p3.1 (sizeLabel lang ident)
  if ¬ p4.2 then ⟨-2, r.count, p4.1⟩ else
  ⟨0, r.count, p4.1⟩

/-- Concatenation of a list of strings. -/
def strJoin : List String → String
  | [] => ""
  | s :: rest => s ++ strJoin rest

/-- The two header writes of `convert`, in order. -/
def headerChunks (lang : LangSpec) (ident : String) : List String :=
  [dataExport lang ident, dataLabel ident]

/-- The per-byte writes of the loop, in order: separator then literal for
each byte, with the running count starting at `c`. -/
def loopChunks (lang : LangSpec) : Nat → List Nat → List String
  | _, [] => []
  | c, b :: rest => sepFor lang c :: byteLit b :: loopChunks lang (c + 1) rest

/-- The two footer writes of `convert`, in order. -/
def footerChunks (lang : LangSpec) (ident : String) : List String :=
  [sizeExport lang ident, sizeLabel lang ident]

/-- Every write of a fully successful `convert`, in order. -/
def allChunks (lang : LangSpec) (ident : String) (bytes : List Nat) : List String :=
  headerChunks lang ident ++ loopChunks lang 0 bytes ++ footerChunks lang ident

/-- Interpose `sep` between the elements of a string list. -/
def sepJoin (sep : String) : List String → String
  | [] => ""
  | [x] => x
  | x :: xs => x ++ sep ++ sepJoin sep xs

/-- One byte-directive output line for a chunk of bytes: newline, the
dialect's byte directive, a tab, then the comma-and-tab separated literals. -/
def lineOf (lang : LangSpec) (chunk : List Nat) : String :=
  "\n" ++ lang.defn ++ "\t" ++ sepJoin ",\t" (chunk.map byteLit)

/-- Fuel-driven grouping of a list into chunks of `ELEMS_PER_LINE`. -/
def chunksF : Nat → List Nat → List (List Nat)
  | 0, _ => []
  | _ + 1, [] => []
  | f + 1, l => l.take ELEMS_PER_LINE :: chunksF f (l.drop ELEMS_PER_LINE)

/-- Grouping of a byte list into lines of `ELEMS_PER_LINE` bytes. -/
def chunks8 (l : List Nat) : List (List Nat) := chunksF l.length l

/-- `str_repl_char` from src/main.c on a char list: replace every occurrence
and count the replacements. -/
def replCharList : List Char → Char → Char → List Char × Nat
  | [], _, _ => ([], 0)
  | c :: rest, old, new =>
    let p := replCharList rest old new
    if c = old then (new :: p.1, p.2 + 1) else (c :: p.1, p.2)

/-- `str_repl_char` from src/main.c: the mutated string plus the number of
replaced characters (the C function mutates in place and returns the count). -/
def str_repl_char (str : String) (old new : Char) : String × Nat :=
  let p := replCharList str.data old new
  (String.mk p.1, p.2)

/-- The two `str_repl_char` calls of `main` (src/main.c lines 249-250):
replace `.` with `_`, then `-` with `_`. -/
def sanitize (s : String) : String :=
  (str_repl_char (str_repl_char s '.' '_').1 '-' '_').1

/-- Modelled from the spec: the input file's "base name", the part of the
path after the final `/` separator (src/main.c itself never computes a base
name; this definition follows the spec's words for comparison). -/
def baseNameSpec (s : String) : String :=
  String.mk ((s.data.reverse.takeWhile (fun c => c ≠ '/')).reverse)

/-- Split a character list at newline characters; always returns one more
component than the number of newlines. -/
def splitNl : List Char → List (List Char)
  | [] => [[]]
  | c :: rest =>
    if c = '\n' then [] :: splitNl rest
    else
      match splitNl rest with
      | [] => [[c]]
      | l :: ls => (c :: l) :: ls

/-- Content of the data export directive line (no trailing newline). -/
def dataExportLine (lang : LangSpec) (ident : String) : String :=
  lang.glob_pre ++ ident ++ "_file" ++ lang.glob_post

/-- Content of the data label line (no trailing newline). -/
def dataLabelLine (ident : String) : String := ident ++ "_file:"

/-- Content of the size export directive line (no trailing newline). -/
def sizeExportLine (lang : LangSpec) (ident : String) : String :=
  lang.glob_pre ++ ident ++ "_file_size" ++ lang.glob_post

/-- Content of the size label line (no trailing newline). -/
def sizeLabelLine (lang : LangSpec) (ident : String) : String :=
  ident ++ "_file_size: " ++ lang.diff ++ ident ++ "_file"

/-- The sixteen lowercase hexadecimal digit characters, in value order. -/
def lowHexDigits : List Char := "0123456789abcdef".data

/-- Numeric value of a lowercase hex digit (its index in `lowHexDigits`). -/
def hexDigitVal (c : Char) : Nat := lowHexDigits.indexOf c

/-- Numeric value of a string of lowercase hex digits. -/
def hexValOf (s : String) : Nat :=
  s.data.foldl (fun acc c => acc * 16 + hexDigitVal c) 0

/-- FILE-pointer values that occur in `main`: `stdout`, `NULL`, the opened
input file, the opened output file. -/
inductive FRef where
  | stdoutF
  | nullF
  | inF
  | outF
deriving DecidableEq, Repr

/-- `cleanup` from src/main.c: the sequence of `fclose` calls it performs,
in order: `if (stdout != out) fclose(out); if (in) fclose(in);`. -/
def cleanup (fin fout : FRef) : List FRef :=
  (if fout ≠ FRef.stdoutF then [fout] else []) ++
  (if fin ≠ FRef.nullF then [fin] else [])

/-- Observable events of a run of `main`: stream opens (with the exact name
passed to `fopen` and whether it succeeded), the call to `convert` (with the
identifier actually passed), each `fclose`, and process exit. -/
inductive MEvent where
  | openInEv (name : String) (ok : Bool)
  | openOutEv (name : String) (ok : Bool)
  | convertEv (ident : String) (langName : String)
  | fcloseEv (f : FRef)
  | exitEv (code : Int)
deriving DecidableEq, Repr

/-- Tail of `main` after both streams are open (src/main.c lines 249-267):
sanitize the input filename in place, run `convert`, then either
cleanup-and-panic on -1 or -2, or cleanup-and-return-0. -/
def mainRest (lang : LangSpec) (inName : String) (outRef : FRef)
    (bytes : List Nat) (inErr : Bool) (budget : Option Nat) : List MEvent :=
  let ident := sanitize inName
  let r := convert lang ident bytes inErr ⟨"", budget⟩
  MEvent.convertEv ident lang.name ::
  if r.ret = -1 ∨ r.ret = -2 then
    (cleanup FRef.inF outRef).map MEvent.fcloseEv ++ [MEvent.exitEv 1]
  else
    (cleanup FRef.inF outRef).map MEvent.fcloseEv ++ [MEvent.exitEv 0]

/-- Event trace of `main` (src/main.c lines 214-268).  `argv` is the argument
vector; `inOk` and `outOk` tell whether the respective `fopen` succeeds;
`bytes`, `inErr` and `budget` parameterize the streams seen by `convert`.
On the output-open-failure path `main` calls `cleanup(in, out)` with
`out == NULL`, which is modelled faithfully: `cleanup` then closes
`FRef.nullF`. -/
def mainModel (argv : List String) (inOk outOk : Bool) (bytes : List Nat)
    (inErr : Bool) (budget : Option Nat) : List MEvent :=
  if argv.length < 3 ∨ 4 < argv.length then [MEvent.exitEv 1]
  else
    match lookup_lang_spec (argv.getD 1 "") with
    | none => [MEvent.exitEv 1]
    | some lang =>
      MEvent.openInEv (argv.getD 2 "") inOk ::
      if ¬ inOk then [MEvent.exitEv 1]
      else if argv.length = 4 then
        MEvent.openOutEv (argv.getD 3 "") outOk ::
        if ¬ outOk then
          (cleanup FRef.inF FRef.nullF).map MEvent.fcloseEv ++ [MEvent.exitEv 1]
        else
          mainRest lang (argv.getD 2 "") FRef.outF bytes inErr budget
      else
        mainRest lang (argv.getD 2 "") FRef.stdoutF bytes inErr budget

/-- The nasm profile from the dialect table. -/
def nasmSpec : LangSpec := ⟨"nasm", "db", "dd $-", "[GLOBAL ", "]"⟩

/-- The fasm profile from the dialect table. -/
def fasmSpec : LangSpec := ⟨"fasm", "db", "dd $-", "global ", ""⟩

/-- The as (AT&T) profile from the dialect table. -/
def asSpec : LangSpec := ⟨"as", ".byte", ".long .-", ".globl ", ""⟩

/-! ### Behaviour of single writes and the write budget -/

theorem wr_none (w s : String) : wr ⟨w, none⟩ s = (⟨w ++ s, none⟩, true) := rfl

theorem wr_zero (w s : String) : wr ⟨w, some 0⟩ s = (⟨w, some 0⟩, false) := rfl

theorem wr_succ (w s : String) (k : Nat) :
    wr ⟨w, some (k + 1)⟩ s = (⟨w ++ s, some k⟩, true) := rfl

theorem strJoin_append (l1 l2 : List String) :
    strJoin (l1 ++ l2) = strJoin l1 ++ strJoin l2 := by
  induction l1 with
  | nil => simp [strJoin, String.empty_append]
  | cons s rest ih => simp [strJoin, ih, String.append_assoc]

theorem loopChunks_length (lang : LangSpec) (bytes : List Nat) :
    ∀ c, (loopChunks lang c bytes).length = 2 * bytes.length := by
  induction bytes with
  | nil => intro c; simp [loopChunks]
  | cons b rest ih => intro c; simp [loopChunks, ih]; omega

/-! ### Characterization of the byte loop -/

theorem loop_none (lang : LangSpec) (bytes : List Nat) (inErr : Bool) :
    ∀ c w, convertLoop lang bytes inErr c ⟨w, none⟩ =
      ⟨if inErr then -1 else 0, c + bytes.length,
       ⟨w ++ strJoin (loopChunks lang c bytes), none⟩⟩ := by
  induction bytes with
  | nil =>
    intro c w
    simp [convertLoop, loopChunks, strJoin, String.append_empty]
  | cons b rest ih =>
    intro c w
    simp only [convertLoop, wr_none, loopChunks, strJoin, List.length_cons]
    rw [ih]
    simp [String.append_assoc]
    omega

theorem loop_some_lt (lang : LangSpec) (bytes : List Nat) (inErr : Bool) :
    ∀ c w k, k < 2 * bytes.length →
      convertLoop lang bytes inErr c ⟨w, some k⟩ =
        ⟨-2, c + k / 2, ⟨w ++ strJoin ((loopChunks lang c bytes).take k), some 0⟩⟩ := by
  induction bytes with
  | nil => intro c w k h; simp at h
  | cons b rest ih =>
    intro c w k h
    match k with
    | 0 =>
      simp [convertLoop, wr_zero, strJoin, String.append_empty]
    | 1 =>
      simp [convertLoop, wr_succ, wr_zero, loopChunks, strJoin, String.append_empty]
    | j + 2 =>
      have hj : j < 2 * rest.length := by simp at h; omega
      simp only [convertLoop, wr_succ, loopChunks]
      rw [ih (c + 1) (w ++ sepFor lang c ++ byteLit b) j hj]
      simp [List.take_succ_cons, strJoin, String.append_assoc]
      omega

theorem loop_some_ge (lang : LangSpec) (bytes : List Nat) (inErr : Bool) :
    ∀ c w k, 2 * bytes.length ≤ k →
      convertLoop lang bytes inErr c ⟨w, some k⟩ =
        ⟨if inErr then -1 else 0, c + bytes.length,
         ⟨w ++ strJoin (loopChunks lang c bytes), some (k - 2 * bytes.length)⟩⟩ := by
  induction bytes with
  | nil =>
    intro c w k _
    simp [convertLoop, loopChunks, strJoin, String.append_empty]
  | cons b rest ih =>
    intro c w k h
    obtain ⟨j, rfl⟩ : ∃ j, k = j + 2 := ⟨k - 2, by simp at h; omega⟩
    have hj : 2 * rest.length ≤ j := by simp at h; omega
    simp only [convertLoop, wr_succ, loopChunks]
    rw [ih (c + 1) (w ++ sepFor lang c ++ byteLit b) j hj]
    simp [strJoin, String.append_assoc, List.length_cons]
    constructor
    · omega
    · omega

/-! ### Characterization of `convert` on each stream scenario -/

theorem convert_none_ok (lang : LangSpec) (ident : String) (bytes : List Nat) (w : String) :
    convert lang ident bytes false ⟨w, none⟩ =
      ⟨0, bytes.length, ⟨w ++ strJoin (allChunks lang ident bytes), none⟩⟩ := by
  simp only [convert, wr_none, loop_none, allChunks, headerChunks, footerChunks]
  simp [strJoin, strJoin_append, String.append_assoc, String.append_empty]

theorem convert_none_err (lang : LangSpec) (ident : String) (bytes : List Nat) (w : String) :
    convert lang ident bytes true ⟨w, none⟩ =
      ⟨-1, bytes.length,
       ⟨w ++ strJoin (headerChunks lang ident ++ loopChunks lang 0 bytes), none⟩⟩ := by
  simp only [convert, wr_none, loop_none, headerChunks]
  simp [strJoin, strJoin_append, String.append_assoc, String.append_empty]

theorem convert_some_lt (lang : LangSpec) (ident : String) (bytes : List Nat)
    (inErr : Bool) (w : String) (k : Nat) (h : k < 2 + 2 * bytes.length) :
    convert lang ident bytes inErr ⟨w, some k⟩ =
      ⟨-2, (k - 2) / 2, ⟨w ++ strJoin ((allChunks lang ident bytes).take k), some 0⟩⟩ := by
  match k with
  | 0 =>
    simp [convert, wr_zero, allChunks, strJoin, String.append_empty]
  | 1 =>
    simp [convert, wr_succ, wr_zero, allChunks, headerChunks, strJoin, String.append_empty]
  | j + 2 =>
    have hj : j < 2 * bytes.length := by omega
    simp only [convert, wr_succ]
    rw [loop_some_lt lang bytes inErr 0 (w ++ dataExport lang ident ++ dataLabel ident) j hj]
    have htake : ((allChunks lang ident bytes).take (j + 2)) =
        dataExport lang ident :: dataLabel ident ::
          (loopChunks lang 0 bytes).take j := by
      simp only [allChunks, headerChunks, List.cons_append, List.nil_append,
        List.take_succ_cons]
      rw [List.take_append_eq_append_take]
      have : j - (loopChunks lang 0 bytes).length = 0 := by
        rw [loopChunks_length]; omega
      simp [this]
    rw [htake]
    simp [strJoin, String.append_assoc]

theorem convert_some_err (lang : LangSpec) (ident : String) (bytes : List Nat)
    (w : String) (k : Nat) (h : 2 + 2 * bytes.length ≤ k) :
    convert lang ident bytes true ⟨w, some k⟩ =
      ⟨-1, bytes.length,
       ⟨w ++ strJoin (headerChunks lang ident ++ loopChunks lang 0 bytes),
        some (k - (2 + 2 * bytes.length))⟩⟩ := by
  obtain ⟨j, rfl⟩ : ∃ j, k = j + 2 := ⟨k - 2, by omega⟩
  have hj : 2 * bytes.length ≤ j := by omega
  simp only [convert, wr_succ]
  rw [loop_some_ge lang bytes true 0 (w ++ dataExport lang ident ++ dataLabel ident) j hj]
  simp [headerChunks, strJoin, strJoin_append, String.append_assoc]
  omega

theorem convert_some_footer (lang : LangSpec) (ident : String) (bytes : List Nat)
    (w : String) (k : Nat) (h1 : 2 + 2 * bytes.length ≤ k) (h2 : k < 4 + 2 * bytes.length) :
    convert lang ident bytes false ⟨w, some k⟩ =
      ⟨-2, bytes.length, ⟨w ++ strJoin ((allChunks lang ident bytes).take k), some 0⟩⟩ := by
  obtain ⟨j, rfl⟩ : ∃ j, k = j + 2 := ⟨k - 2, by omega⟩
  have hj : 2 * bytes.length ≤ j := by omega
  simp only [convert, wr_succ]
  rw [loop_some_ge lang bytes false 0 (w ++ dataExport lang ident ++ dataLabel ident) j hj]
  have htake : ∀ m, ((allChunks lang ident bytes).take (2 + (2 * bytes.length + m))) =
      dataExport lang ident :: dataLabel ident ::
        (loopChunks lang 0 bytes ++ (footerChunks lang ident).take m) := by
    intro m
    have hcount : 2 + (2 * bytes.length + m) = 2 * bytes.length + m + 1 + 1 := by omega
    rw [hcount]
    simp only [allChunks, headerChunks, List.cons_append, List.nil_append,
      List.take_succ_cons]
    have hlen : (loopChunks lang 0 bytes).length = 2 * bytes.length :=
      loopChunks_length lang bytes 0
    rw [List.take_append_eq_append_take]
    rw [List.take_of_length_le (by rw [hlen]; omega), hlen]
    simp
  have hcase : j - 2 * bytes.length = 0 ∨ j - 2 * bytes.length = 1 := by omega
  rcases hcase with hc | hc
  · rw [hc]
    have : j + 2 = 2 + (2 * bytes.length + 0) := by omega
    rw [this, htake 0]
    simp [footerChunks, strJoin, strJoin_append, String.append_assoc,
      String.append_empty, wr_zero]
  · rw [hc]
    have : j + 2 = 2 + (2 * bytes.length + 1) := by omega
    rw [this, htake 1]
    simp [footerChunks, strJoin, strJoin_append, String.append_assoc,
      String.append_empty, wr_succ, wr_zero]

theorem convert_some_ok (lang : LangSpec) (ident : String) (bytes : List Nat)
    (w : String) (k : Nat) (h : 4 + 2 * bytes.length ≤ k) :
    convert lang ident bytes false ⟨w, some k⟩ =
      ⟨0, bytes.length,
       ⟨w ++ strJoin (allChunks lang ident bytes), some (k - (4 + 2 * bytes.length))⟩⟩ := by
  obtain ⟨j, rfl⟩ : ∃ j, k = j + 2 := ⟨k - 2, by omega⟩
  have hj : 2 * bytes.length ≤ j := by omega
  simp only [convert, wr_succ]
  rw [loop_some_ge lang bytes false 0 (w ++ dataExport lang ident ++ dataLabel ident) j hj]
  obtain ⟨m, hm⟩ : ∃ m, j - 2 * bytes.length = m + 2 := ⟨j - 2 * bytes.length - 2, by omega⟩
  rw [hm]
  simp [allChunks, headerChunks, footerChunks, strJoin, strJoin_append,
    String.append_assoc, String.append_empty, wr_succ]
  omega

/-! ### Chunk structure of the emitted byte lines -/

theorem chunksF_nil (f : Nat) : chunksF f [] = [] := by
  cases f <;> rfl

theorem chunksF_fuel : ∀ (f g : Nat) (l : List Nat), l.length ≤ f → l.length ≤ g →
    chunksF f l = chunksF g l := by
  intro f
  induction f with
  | zero =>
    intro g l h _
    have hl : l = [] := List.eq_nil_of_length_eq_zero (by omega)
    subst hl
    rw [chunksF_nil, chunksF_nil]
  | succ f ih =>
    intro g l h hg
    cases l with
    | nil => rw [chunksF_nil, chunksF_nil]
    | cons b rest =>
      obtain ⟨g2, rfl⟩ : ∃ g2, g = g2 + 1 := ⟨g - 1, by simp at hg; omega⟩
      simp only [chunksF]
      congr 1
      have hd : ((b :: rest).drop ELEMS_PER_LINE).length = rest.length + 1 - 8 := by
        simp only [List.length_drop, List.length_cons, ELEMS_PER_LINE]
      have hf : rest.length + 1 ≤ f + 1 := by simpa using h
      have hg2 : rest.length + 1 ≤ g2 + 1 := by simpa using hg
      apply ih
      · rw [hd]
        omega
      · rw [hd]
        omega

theorem chunks8_cons (l : List Nat) (hl : l ≠ []) :
    chunks8 l = l.take 8 :: chunks8 (l.drop 8) := by
  match l, hl with
  | b :: rest, _ =>
    show chunksF (b :: rest).length (b :: rest) = _
    have hlen : (b :: rest).length = rest.length + 1 := rfl
    rw [hlen]
    simp only [chunksF]
    have he : ELEMS_PER_LINE = 8 := rfl
    rw [he]
    congr 1
    apply chunksF_fuel
    · simp [List.length_drop]
    · exact le_rfl

theorem chunks8_props : ∀ (n : Nat) (l : List Nat), l.length ≤ n →
    (chunks8 l).length = (l.length + 7) / 8
    ∧ (∀ ch ∈ chunks8 l, ch ≠ [] ∧ ch.length ≤ 8)
    ∧ (∀ ch ∈ (chunks8 l).dropLast, ch.length = 8)
    ∧ (chunks8 l).flatten = l := by
  intro n
  induction n with
  | zero =>
    intro l h
    have hl : l = [] := List.eq_nil_of_length_eq_zero (by omega)
    subst hl
    simp [chunks8, chunksF]
  | succ n ih =>
    intro l h
    by_cases hl : l = []
    · subst hl
      simp [chunks8, chunksF]
    · have hpos : 0 < l.length := List.length_pos.mpr hl
      have hdlen : (l.drop 8).length ≤ n := by
        simp only [List.length_drop]
        omega
      obtain ⟨ih1, ih2, ih3, ih4⟩ := ih (l.drop 8) hdlen
      rw [chunks8_cons l hl]
      refine ⟨?_, ?_, ?_, ?_⟩
      · simp only [List.length_cons, ih1, List.length_drop]
        omega
      · intro ch hch
        rcases List.mem_cons.mp hch with hc | hc
        · subst hc
          refine ⟨?_, ?_⟩
          · have : (l.take 8).length = min 8 l.length := List.length_take 8 l
            intro hnil
            rw [hnil] at this
            simp at this
            omega
          · rw [List.length_take]
            omega
        · exact ih2 ch hc
      · intro ch hch
        by_cases hd : l.drop 8 = []
        · rw [hd] at hch
          simp [chunks8, chunksF] at hch
        · have hne : chunks8 (l.drop 8) ≠ [] := by
            rw [chunks8_cons _ hd]
            simp
          rw [List.dropLast_cons_of_ne_nil hne] at hch
          rcases List.mem_cons.mp hch with hc | hc
          · subst hc
            have hlt : 8 < l.length := by
              by_contra hle
              exact hd (List.drop_eq_nil_of_le (by omega))
            rw [List.length_take]
            omega
          · exact ih3 ch hc
      · simp only [List.flatten_cons, ih4, List.take_append_drop]

theorem chunks8_length (l : List Nat) : (chunks8 l).length = (l.length + 7) / 8 :=
  (chunks8_props l.length l le_rfl).1

theorem chunks8_mem (l : List Nat) : ∀ ch ∈ chunks8 l, ch ≠ [] ∧ ch.length ≤ 8 :=
  (chunks8_props l.length l le_rfl).2.1

theorem chunks8_dropLast (l : List Nat) : ∀ ch ∈ (chunks8 l).dropLast, ch.length = 8 :=
  (chunks8_props l.length l le_rfl).2.2.1

theorem chunks8_flatten (l : List Nat) : (chunks8 l).flatten = l :=
  (chunks8_props l.length l le_rfl).2.2.2

/-! ### The loop text is the concatenation of the byte-directive lines -/

theorem loopChunks_append (lang : LangSpec) (l1 : List Nat) :
    ∀ (l2 : List Nat) (c : Nat),
      loopChunks lang c (l1 ++ l2) = loopChunks lang c l1 ++ loopChunks lang (c + l1.length) l2 := by
  induction l1 with
  | nil => intro l2 c; simp [loopChunks]
  | cons b rest ih =>
    intro l2 c
    have hcount : c + (rest.length + 1) = c + 1 + rest.length := by omega
    simp only [List.cons_append, loopChunks, List.length_cons, List.append_eq, ih, hcount]

theorem strJoin_mid_line (lang : LangSpec) (l : List Nat) :
    ∀ c : Nat, 0 < c % 8 → c % 8 + l.length ≤ 8 →
      strJoin (loopChunks lang c l) =
        strJoin (l.map (fun b => ",\t" ++ byteLit b)) := by
  induction l with
  | nil => intro c _ _; rfl
  | cons b rest ih =>
    intro c hc hle
    have h1 : c ≠ 0 := by omega
    have h2 : c % ELEMS_PER_LINE ≠ 0 := by
      simp only [ELEMS_PER_LINE]
      omega
    have hsep : sepFor lang c = ",\t" := by rw [sepFor, if_pos ⟨h1, h2⟩]
    have hrest : strJoin (loopChunks lang (c + 1) rest) =
        strJoin (rest.map (fun x => ",\t" ++ byteLit x)) := by
      by_cases hr : rest = []
      · subst hr
        rfl
      · have hpos : 0 < rest.length := List.length_pos.mpr hr
        simp only [List.length_cons] at hle
        exact ih (c + 1) (by omega) (by omega)
    simp only [loopChunks, strJoin, List.map_cons, hsep, hrest, String.append_assoc]

theorem sepJoin_cons_join (s x : String) (xs : List String) :
    sepJoin s (x :: xs) = x ++ strJoin (xs.map (fun y => s ++ y)) := by
  induction xs generalizing x with
  | nil => simp [sepJoin, strJoin, String.append_empty]
  | cons y t ih =>
    simp only [sepJoin, List.map_cons, strJoin]
    rw [ih y]
    simp [String.append_assoc]

theorem loop_line_step (lang : LangSpec) (l : List Nat) (c : Nat)
    (hc : c % 8 = 0) (hl : l ≠ []) :
    strJoin (loopChunks lang c l) =
      lineOf lang (l.take 8) ++ strJoin (loopChunks lang (c + 8) (l.drop 8)) := by
  match l, hl with
  | b :: rest, _ =>
    have hsep : sepFor lang c = "\n" ++ lang.defn ++ "\t" := by
      rw [sepFor, if_neg]
      simp [ELEMS_PER_LINE]
      omega
    have hsplit : loopChunks lang (c + 1) rest =
        loopChunks lang (c + 1) (rest.take 7) ++
          loopChunks lang (c + 1 + (rest.take 7).length) (rest.drop 7) := by
      conv_lhs => rw [← List.take_append_drop 7 rest]
      exact loopChunks_append lang (rest.take 7) (rest.drop 7) (c + 1)
    have htail : strJoin (loopChunks lang (c + 1 + (rest.take 7).length) (rest.drop 7)) =
        strJoin (loopChunks lang (c + 8) (rest.drop 7)) := by
      by_cases hr : 7 ≤ rest.length
      · have h7 : (rest.take 7).length = 7 := by
          rw [List.length_take]
          omega
        rw [h7]
      · have hnil : rest.drop 7 = [] := List.drop_eq_nil_of_le (by omega)
        rw [hnil]
        rfl
    have hmid : strJoin (loopChunks lang (c + 1) (rest.take 7)) =
        strJoin ((rest.take 7).map (fun x => ",\t" ++ byteLit x)) := by
      apply strJoin_mid_line
      · omega
      · have : (rest.take 7).length ≤ 7 := by
          rw [List.length_take]
          omega
        omega
    have htake8 : (b :: rest).take 8 = b :: rest.take 7 := rfl
    have hdrop8 : (b :: rest).drop 8 = rest.drop 7 := rfl
    rw [htake8, hdrop8]
    simp only [loopChunks, strJoin, hsep, hsplit, strJoin_append, hmid, htail,
      lineOf, List.map_cons]
    rw [sepJoin_cons_join]
    simp [String.append_assoc, List.map_map, Function.comp_def]

theorem body_eq_lines (lang : LangSpec) : ∀ (n : Nat) (l : List Nat), l.length ≤ n →
    ∀ c, c % 8 = 0 →
      strJoin (loopChunks lang c l) = strJoin ((chunks8 l).map (lineOf lang)) := by
  intro n
  induction n with
  | zero =>
    intro l h c _
    have hl : l = [] := List.eq_nil_of_length_eq_zero (by omega)
    subst hl
    rfl
  | succ n ih =>
    intro l h c hc
    by_cases hl : l = []
    · subst hl
      rfl
    · have hpos : 0 < l.length := List.length_pos.mpr hl
      rw [loop_line_step lang l c hc hl, chunks8_cons l hl]
      simp only [List.map_cons, strJoin]
      congr 1
      apply ih
      · simp only [List.length_drop]
        omega
      · omega

/-! ### Splitting emitted text into lines -/

theorem splitNl_newline (b : List Char) : splitNl ('\n' :: b) = [] :: splitNl b := by
  simp [splitNl]

theorem splitNl_ne_nil (l : List Char) : splitNl l ≠ [] := by
  induction l with
  | nil => simp [splitNl]
  | cons c rest ih =>
    by_cases h : c = '\n'
    · subst h
      simp [splitNl]
    · simp only [splitNl, if_neg h]
      cases hsp : splitNl rest with
      | nil => exact absurd hsp ih
      | cons a t => simp

theorem splitNl_append_line (a : List Char) :
    ∀ b : List Char, '\n' ∉ a → splitNl (a ++ '\n' :: b) = a :: splitNl b := by
  induction a with
  | nil =>
    intro b _
    simp [splitNl]
  | cons c rest ih =>
    intro b ha
    have hc : ¬ c = '\n' := fun h => ha (by rw [h]; exact List.mem_cons_self _ _)
    have ha2 : '\n' ∉ rest := fun h => ha (List.mem_cons_of_mem c h)
    simp only [List.cons_append, splitNl, if_neg hc, List.append_eq, ih b ha2]

theorem splitNl_fragment (a1 a2 a3 a4 : List Char)
    (h1 : '\n' ∉ a1) (h2 : '\n' ∉ a2) (h3 : '\n' ∉ a3) (h4 : '\n' ∉ a4) :
    splitNl (a1 ++ '\n' :: (a2 ++ '\n' :: ('\n' :: ('\n' :: (a3 ++ '\n' :: (a4 ++ ['\n'])))))) =
      [a1, a2, [], [], a3, a4, []] := by
  rw [splitNl_append_line a1 _ h1, splitNl_append_line a2 _ h2, splitNl_newline,
    splitNl_newline, splitNl_append_line a3 _ h3]
  have : (['\n'] : List Char) = '\n' :: [] := rfl
  rw [this, splitNl_append_line a4 [] h4]
  rfl

/-! ### Claim theorems -/

/-- C4: the dialect table holds exactly the profiles nasm (`db`, `dd $-`,
`[GLOBAL `, `]`), fasm (`db`, `dd $-`, `global `, empty) and as (`.byte`,
`.long .-`, `.globl `, empty), in that order, and `lookup_lang_spec` is an
exact case-sensitive first-match search returning none for every other name. -/
theorem c4_dialect_table :
    lang_specs = [nasmSpec, fasmSpec, asSpec]
    ∧ nasmSpec = ⟨"nasm", "db", "dd $-", "[GLOBAL ", "]"⟩
    ∧ fasmSpec = ⟨"fasm", "db", "dd $-", "global ", ""⟩
    ∧ asSpec = ⟨"as", ".byte", ".long .-", ".globl ", ""⟩
    ∧ ∀ name : String,
        lookup_lang_spec name =
          if name = "nasm" then some nasmSpec
          else if name = "fasm" then some fasmSpec
          else if name = "as" then some asSpec
          else none := by
  refine ⟨rfl, rfl, rfl, rfl, fun name => ?_⟩
  by_cases h1 : name = "nasm"
  · subst h1
    rfl
  · by_cases h2 : name = "fasm"
    · subst h2
      rfl
    · by_cases h3 : name = "as"
      · subst h3
        rfl
      · rw [if_neg h1, if_neg h2, if_neg h3]
        have g1 : (("nasm" : String) == name) = false := by
          simp [beq_iff_eq]
          exact fun h => h1 h.symm
        have g2 : (("fasm" : String) == name) = false := by
          simp [beq_iff_eq]
          exact fun h => h2 h.symm
        have g3 : (("as" : String) == name) = false := by
          simp [beq_iff_eq]
          exact fun h => h3 h.symm
        simp [lookup_lang_spec, lang_specs, List.find?, g1, g2, g3]

set_option maxRecDepth 8192 in
/-- C2: for every byte value 0..255 the emitted literal is `0x` followed by
the lowercase hexadecimal representation of the byte with no leading zero
padding: every digit is a lowercase hex digit, the digit string evaluates
back to the byte, a leading `0` occurs only for the byte 0 itself, the width
is 1 digit below 16 and 2 digits otherwise, and 0, 10, 255 give `0x0`,
`0xa`, `0xff`. -/
theorem c2_byte_literal : ∀ b : Nat, b < 256 →
    byteLit b = "0x" ++ hexStr b
    ∧ (∀ ch ∈ (hexStr b).data, ch ∈ lowHexDigits)
    ∧ hexValOf (hexStr b) = b
    ∧ ((hexStr b).data.head? = some '0' → b = 0)
    ∧ (hexStr b).data.length = (if b < 16 then 1 else 2)
    ∧ byteLit 0 = "0x0" ∧ byteLit 10 = "0xa" ∧ byteLit 255 = "0xff" := by
  decide

/-- Witness for C2 at the byte 255. -/
theorem c2_byte_literal_witness :
    byteLit 255 = "0x" ++ hexStr 255
    ∧ (∀ ch ∈ (hexStr 255).data, ch ∈ lowHexDigits)
    ∧ hexValOf (hexStr 255) = 255
    ∧ ((hexStr 255).data.head? = some '0' → (255 : Nat) = 0)
    ∧ (hexStr 255).data.length = (if (255 : Nat) < 16 then 1 else 2)
    ∧ byteLit 0 = "0x0" ∧ byteLit 10 = "0xa" ∧ byteLit 255 = "0xff" :=
  c2_byte_literal 255 (by decide)

/-- C7: the byte count returned by a successful `convert` (return value 0)
equals the number of bytes read from the input stream, whatever the initial
output state. -/
theorem c7_count (lang : LangSpec) (ident : String) (bytes : List Nat)
    (inErr : Bool) (st0 : OutSt) (h : (convert lang ident bytes inErr st0).ret = 0) :
    (convert lang ident bytes inErr st0).count = bytes.length := by
  obtain ⟨w, budget⟩ := st0
  cases budget with
  | none =>
    cases inErr with
    | false => rw [convert_none_ok]
    | true =>
      rw [convert_none_err] at h
      simp at h
  | some k =>
    rcases lt_or_ge k (2 + 2 * bytes.length) with hk | hk
    · rw [convert_some_lt lang ident bytes inErr w k hk] at h
      simp at h
    · cases inErr with
      | true =>
        rw [convert_some_err lang ident bytes w k hk] at h
        simp at h
      | false =>
        rcases lt_or_ge k (4 + 2 * bytes.length) with hk2 | hk2
        · rw [convert_some_footer lang ident bytes w k hk hk2] at h
          simp at h
        · rw [convert_some_ok lang ident bytes w k hk2]

/-- Witness for C7: a 3-byte input and an empty input, both successful. -/
theorem c7_count_witness :
    (convert nasmSpec "f" [1, 2, 3] false ⟨"", none⟩).count = 3
    ∧ (convert nasmSpec "f" [] false ⟨"", none⟩).count = 0 :=
  ⟨c7_count nasmSpec "f" [1, 2, 3] false ⟨"", none⟩ (by decide),
   c7_count nasmSpec "f" [] false ⟨"", none⟩ (by decide)⟩

/-- C1: for every dialect profile, identifier and input byte sequence, the
successful output is the header, then one byte-directive line per chunk of 8
bytes (newline, byte directive, tab, comma-tab-separated literals), then the
footer; the separator before a byte at running count c is the
newline-directive-tab form exactly when c = 0 or c mod 8 = 0 and comma-tab
otherwise; the number of byte-directive lines is the ceiling of the byte
count divided by 8; every line except possibly the last carries exactly 8
literals; and the lines cover exactly the input bytes in order. -/
theorem c1_line_grouping (lang : LangSpec) (ident : String) (bytes : List Nat) :
    (convert lang ident bytes false ⟨"", none⟩).st.written =
      dataExport lang ident ++ dataLabel ident ++
        strJoin ((chunks8 bytes).map (lineOf lang)) ++
        sizeExport lang ident ++ sizeLabel lang ident
    ∧ (∀ c : Nat, sepFor lang c =
        if c = 0 ∨ c % 8 = 0 then "\n" ++ lang.defn ++ "\t" else ",\t")
    ∧ (chunks8 bytes).length = (bytes.length + 7) / 8
    ∧ (∀ ch ∈ (chunks8 bytes).dropLast, (ch.map byteLit).length = 8)
    ∧ (∀ ch ∈ chunks8 bytes, ch ≠ [] ∧ (ch.map byteLit).length ≤ 8)
    ∧ (chunks8 bytes).flatten = bytes := by
  refine ⟨?_, ?_, chunks8_length bytes, ?_, ?_, chunks8_flatten bytes⟩
  · rw [convert_none_ok]
    simp only [allChunks, headerChunks, footerChunks, List.append_eq, List.nil_append,
      List.cons_append, strJoin_append, strJoin, String.empty_append, String.append_empty]
    rw [body_eq_lines lang bytes.length bytes le_rfl 0 rfl]
    simp [String.append_assoc, String.append_empty]
  · intro c
    by_cases h : c = 0 ∨ c % 8 = 0
    · have hcond : ¬ (c ≠ 0 ∧ c % ELEMS_PER_LINE ≠ 0) := by
        simp only [ELEMS_PER_LINE]
        omega
      rw [sepFor, if_neg hcond, if_pos h]
    · have hcond : c ≠ 0 ∧ c % ELEMS_PER_LINE ≠ 0 := by
        simp only [ELEMS_PER_LINE]
        omega
      rw [sepFor, if_pos hcond, if_neg h]
  · intro ch hch
    rw [List.length_map]
    exact chunks8_dropLast bytes ch hch
  · intro ch hch
    obtain ⟨hne, hle⟩ := chunks8_mem bytes ch hch
    rw [List.length_map]
    exact ⟨hne, hle⟩

/-- Witness for C1: the 10-byte input 0..9 splits into a full first line of
8 literals and a second line of 2. -/
theorem c1_line_grouping_witness :
    ([0, 1, 2, 3, 4, 5, 6, 7] ∈ (chunks8 [0, 1, 2, 3, 4, 5, 6, 7, 8, 9]).dropLast)
    ∧ (List.map byteLit [0, 1, 2, 3, 4, 5, 6, 7]).length = 8 := by
  constructor
  · decide
  · exact (c1_line_grouping asSpec "x" [0, 1, 2, 3, 4, 5, 6, 7, 8, 9]).2.2.2.1
      [0, 1, 2, 3, 4, 5, 6, 7] (by decide)

/-- C3: for every supported dialect and a newline-free identifier, converting
a zero-length input emits exactly the four non-blank lines data export, data
label, size export, size label, with only two blank lines (and in particular
no byte-directive line, not even an empty one) between the data label and
the size export, and the size label line is the identifier's size symbol
followed by the dialect's exact size-expression template. -/
theorem c3_empty_input (lang : LangSpec) (hlang : lang ∈ lang_specs)
    (ident : String) (hid : '\n' ∉ ident.data) :
    splitNl ((convert lang ident [] false ⟨"", none⟩).st.written).data =
      [(dataExportLine lang ident).data, (dataLabelLine ident).data, [], [],
       (sizeExportLine lang ident).data, (sizeLabelLine lang ident).data, []]
    ∧ (splitNl ((convert lang ident [] false ⟨"", none⟩).st.written).data).filter
        (fun l => !l.isEmpty) =
      [(dataExportLine lang ident).data, (dataLabelLine ident).data,
       (sizeExportLine lang ident).data, (sizeLabelLine lang ident).data]
    ∧ ((splitNl ((convert lang ident [] false ⟨"", none⟩).st.written).data).filter
        (fun l => !l.isEmpty)).length = 4
    ∧ sizeLabelLine lang ident = ident ++ "_file_size: " ++ lang.diff ++ ident ++ "_file"
    ∧ ((lang.name = "nasm" → lang.diff = "dd $-")
       ∧ (lang.name = "fasm" → lang.diff = "dd $-")
       ∧ (lang.name = "as" → lang.diff = ".long .-")) := by
  have hgp : '\n' ∉ lang.glob_pre.data := by
    fin_cases hlang <;> decide
  have hgq : '\n' ∉ lang.glob_post.data := by
    fin_cases hlang <;> decide
  have hdiff : '\n' ∉ lang.diff.data := by
    fin_cases hlang <;> decide
  have hw : (convert lang ident [] false ⟨"", none⟩).st.written =
      dataExport lang ident ++ (dataLabel ident ++ (sizeExport lang ident ++ sizeLabel lang ident)) := by
    rw [convert_none_ok]
    simp [allChunks, headerChunks, footerChunks, loopChunks, List.append_eq,
      List.nil_append, List.cons_append, strJoin, String.append_assoc,
      String.append_empty, String.empty_append]
  have d1 : ("\n" : String).data = ['\n'] := rfl
  have d2 : ("\n\n" : String).data = ['\n', '\n'] := rfl
  have hdata : ((convert lang ident [] false ⟨"", none⟩).st.written).data =
      (dataExportLine lang ident).data ++ '\n' :: ((dataLabelLine ident).data ++ '\n' ::
        ('\n' :: ('\n' :: ((sizeExportLine lang ident).data ++ '\n' ::
          ((sizeLabelLine lang ident).data ++ ['\n']))))) := by
    rw [hw]
    simp [dataExport, dataLabel, sizeExport, sizeLabel, dataExportLine,
      dataLabelLine, sizeExportLine, sizeLabelLine, String.data_append, d1, d2,
      List.append_assoc]
  have hfile : '\n' ∉ ("_file" : String).data := by decide
  have hfilec : '\n' ∉ ("_file:" : String).data := by decide
  have hfs : '\n' ∉ ("_file_size" : String).data := by decide
  have hfss : '\n' ∉ ("_file_size: " : String).data := by decide
  have h1 : '\n' ∉ (dataExportLine lang ident).data := by
    simp only [dataExportLine, String.data_append, List.mem_append]
    rintro (((h | h) | h) | h)
    · exact hgp h
    · exact hid h
    · exact hfile h
    · exact hgq h
  have h2 : '\n' ∉ (dataLabelLine ident).data := by
    simp only [dataLabelLine, String.data_append, List.mem_append]
    rintro (h | h)
    · exact hid h
    · exact hfilec h
  have h3 : '\n' ∉ (sizeExportLine lang ident).data := by
    simp only [sizeExportLine, String.data_append, List.mem_append]
    rintro (((h | h) | h) | h)
    · exact hgp h
    · exact hid h
    · exact hfs h
    · exact hgq h
  have h4 : '\n' ∉ (sizeLabelLine lang ident).data := by
    simp only [sizeLabelLine, String.data_append, List.mem_append]
    rintro ((((h | h) | h) | h) | h)
    · exact hid h
    · exact hfss h
    · exact hdiff h
    · exact hid h
    · exact hfile h
  have hsplit : splitNl ((convert lang ident [] false ⟨"", none⟩).st.written).data =
      [(dataExportLine lang ident).data, (dataLabelLine ident).data, [], [],
       (sizeExportLine lang ident).data, (sizeLabelLine lang ident).data, []] := by
    rw [hdata]
    exact splitNl_fragment _ _ _ _ h1 h2 h3 h4
  have hne1 : (dataExportLine lang ident).data.isEmpty = false := by
    have hf : ("_file" : String).data.length = 5 := rfl
    simp only [dataExportLine, String.data_append, List.isEmpty_eq_false,
      ne_eq, List.append_eq_nil]
    intro hcon
    have := congrArg List.length hcon.1.2
    rw [hf] at this
    simp at this
  have hne2 : (dataLabelLine ident).data.isEmpty = false := by
    have hf : ("_file:" : String).data.length = 6 := rfl
    simp only [dataLabelLine, String.data_append, List.isEmpty_eq_false,
      ne_eq, List.append_eq_nil]
    intro hcon
    have := congrArg List.length hcon.2
    rw [hf] at this
    simp at this
  have hne3 : (sizeExportLine lang ident).data.isEmpty = false := by
    have hf : ("_file_size" : String).data.length = 10 := rfl
    simp only [sizeExportLine, String.data_append, List.isEmpty_eq_false,
      ne_eq, List.append_eq_nil]
    intro hcon
    have := congrArg List.length hcon.1.2
    rw [hf] at this
    simp at this
  have hne4 : (sizeLabelLine lang ident).data.isEmpty = false := by
    have hf : ("_file" : String).data.length = 5 := rfl
    simp only [sizeLabelLine, String.data_append, List.isEmpty_eq_false,
      ne_eq, List.append_eq_nil]
    intro hcon
    have := congrArg List.length hcon.2
    rw [hf] at this
    simp at this
  have hfil : (splitNl ((convert lang ident [] false ⟨"", none⟩).st.written).data).filter
      (fun l => !l.isEmpty) =
      [(dataExportLine lang ident).data, (dataLabelLine ident).data,
       (sizeExportLine lang ident).data, (sizeLabelLine lang ident).data] := by
    rw [hsplit]
    simp [List.filter, hne1, hne2, hne3, hne4]
  refine ⟨hsplit, hfil, ?_, rfl, ?_⟩
  · rw [hfil]
    rfl
  · fin_cases hlang <;> decide

/-- Witness for C3: nasm dialect, identifier `x`. -/
theorem c3_empty_input_witness :
    ((splitNl ((convert nasmSpec "x" [] false ⟨"", none⟩).st.written).data).filter
      (fun l => !l.isEmpty)).length = 4 :=
  (c3_empty_input nasmSpec (by decide) "x" (by decide)).2.2.1

/-- C6: `convert` returns 0 after writing the whole fragment when the stream
has no errors; on a read error it returns -1, having written only the header
and byte lines and nothing of the footer; and when the k-th write fails
(budget of k successful writes, k smaller than the number of writes of a
full run) it returns -2 having emitted exactly the first k writes and
nothing further. -/
theorem c6_status_codes (lang : LangSpec) (ident : String) (bytes : List Nat) :
    ((convert lang ident bytes false ⟨"", none⟩).ret = 0
      ∧ (convert lang ident bytes false ⟨"", none⟩).st.written =
          strJoin (allChunks lang ident bytes))
    ∧ ((convert lang ident bytes true ⟨"", none⟩).ret = -1
      ∧ (convert lang ident bytes true ⟨"", none⟩).st.written =
          strJoin (headerChunks lang ident ++ loopChunks lang 0 bytes))
    ∧ ∀ k : Nat, k < (allChunks lang ident bytes).length →
        (convert lang ident bytes false ⟨"", some k⟩).ret = -2
        ∧ (convert lang ident bytes false ⟨"", some k⟩).st.written =
            strJoin ((allChunks lang ident bytes).take k) := by
  have hlen : (allChunks lang ident bytes).length = 4 + 2 * bytes.length := by
    simp [allChunks, headerChunks, footerChunks, List.length_append, loopChunks_length]
    omega
  refine ⟨⟨?_, ?_⟩, ⟨?_, ?_⟩, ?_⟩
  · rw [convert_none_ok]
  · rw [convert_none_ok]
    simp [String.empty_append]
  · rw [convert_none_err]
  · rw [convert_none_err]
    simp [String.empty_append]
  · intro k hk
    rw [hlen] at hk
    rcases lt_or_ge k (2 + 2 * bytes.length) with h1 | h1
    · rw [convert_some_lt lang ident bytes false "" k h1]
      exact ⟨rfl, by simp [String.empty_append]⟩
    · rw [convert_some_footer lang ident bytes "" k h1 hk]
      exact ⟨rfl, by simp [String.empty_append]⟩

/-- Witness for C6: a one-byte input whose fourth write fails. -/
theorem c6_status_codes_witness :
    (convert nasmSpec "f" [5] false ⟨"", some 3⟩).ret = -2
    ∧ (convert nasmSpec "f" [5] false ⟨"", some 3⟩).st.written =
        strJoin ((allChunks nasmSpec "f" [5]).take 3) :=
  (c6_status_codes nasmSpec "f" [5]).2.2 3 (by decide)

theorem loopChunks_take_even (lang : LangSpec) (bytes : List Nat) :
    ∀ (c m : Nat), m ≤ bytes.length →
      (loopChunks lang c bytes).take (2 * m) = loopChunks lang c (bytes.take m) := by
  induction bytes with
  | nil =>
    intro c m h
    have : m = 0 := by simpa using h
    subst this
    rfl
  | cons b rest ih =>
    intro c m h
    match m with
    | 0 => rfl
    | m + 1 =>
      have h2 : 2 * (m + 1) = 2 * m + 1 + 1 := by omega
      rw [h2]
      simp only [loopChunks, List.take_succ_cons]
      rw [ih (c + 1) m (by simpa using h)]

theorem loopChunks_take_odd (lang : LangSpec) (bytes : List Nat) :
    ∀ (c m : Nat), m < bytes.length →
      (loopChunks lang c bytes).take (2 * m + 1) =
        loopChunks lang c (bytes.take m) ++ [sepFor lang (c + m)] := by
  induction bytes with
  | nil =>
    intro c m h
    simp at h
  | cons b rest ih =>
    intro c m h
    match m with
    | 0 => simp [loopChunks, List.take_succ_cons]
    | m + 1 =>
      have h2 : 2 * (m + 1) + 1 = 2 * m + 1 + 1 + 1 := by omega
      rw [h2]
      simp only [loopChunks, List.take_succ_cons]
      rw [ih (c + 1) m (by simpa using h)]
      have h3 : c + 1 + m = c + (m + 1) := by omega
      rw [h3]
      rfl

/-- C9: whenever `convert` returns a read or write failure, the exported
count is exactly the number of bytes whose two writes (separator and
literal) both succeeded: numerically the minimum of (k-2)/2 (k the write
budget, 2 writes for the header, 2 per byte) and the byte count, and the
written text decomposes into the emitted header prefix, the full literals of
exactly the counted bytes, and at most one trailing separator or footer
part. -/
theorem c9_count_on_error (lang : LangSpec) (ident : String) (bytes : List Nat)
    (inErr : Bool) (k : Nat)
    (h : (convert lang ident bytes inErr ⟨"", some k⟩).ret ≠ 0) :
    (convert lang ident bytes inErr ⟨"", some k⟩).count = min ((k - 2) / 2) bytes.length
    ∧ ∃ rest : String,
        (convert lang ident bytes inErr ⟨"", some k⟩).st.written =
          strJoin ((headerChunks lang ident).take (min k 2)) ++
            (strJoin (loopChunks lang 0 (bytes.take
              ((convert lang ident bytes inErr ⟨"", some k⟩).count))) ++ rest) := by
  rcases lt_or_ge k (2 + 2 * bytes.length) with h1 | h1
  · rw [convert_some_lt lang ident bytes inErr "" k h1]
    refine ⟨?_, ?_⟩
    · show (k - 2) / 2 = min ((k - 2) / 2) bytes.length
      omega
    rcases Nat.lt_or_ge k 2 with h2 | h2
    · interval_cases k
      · exact ⟨"", by simp [allChunks, headerChunks, strJoin, loopChunks,
          String.empty_append, String.append_empty]⟩
      · exact ⟨"", by simp [allChunks, headerChunks, strJoin, loopChunks,
          String.empty_append, String.append_empty]⟩
    · obtain ⟨j, rfl⟩ : ∃ j, k = j + 2 := ⟨k - 2, by omega⟩
      have hj : j < 2 * bytes.length := by omega
      have hmin : min (j + 2) 2 = 2 := by omega
      have hcnt : j + 2 - 2 = j := by omega
      rw [hmin, hcnt]
      have htop : (allChunks lang ident bytes).take (j + 2) =
          dataExport lang ident :: dataLabel ident :: (loopChunks lang 0 bytes).take j := by
        simp only [allChunks, headerChunks, List.cons_append, List.nil_append,
          List.take_succ_cons]
        rw [List.take_append_eq_append_take]
        have hz : j - (loopChunks lang 0 bytes).length = 0 := by
          rw [loopChunks_length]
          omega
        rw [hz]
        simp
      rw [htop]
      rcases Nat.mod_two_eq_zero_or_one j with hm | hm
      · have hj2 : j = 2 * (j / 2) := by omega
        refine ⟨"", ?_⟩
        conv_lhs => rw [hj2]
        rw [loopChunks_take_even lang bytes 0 (j / 2) (by omega)]
        simp [headerChunks, strJoin, String.empty_append, String.append_empty,
          String.append_assoc]
      · have hj2 : j = 2 * (j / 2) + 1 := by omega
        refine ⟨sepFor lang (j / 2), ?_⟩
        conv_lhs => rw [hj2]
        rw [loopChunks_take_odd lang bytes 0 (j / 2) (by omega)]
        simp [headerChunks, strJoin, strJoin_append, String.empty_append,
          String.append_empty, String.append_assoc]
  · cases inErr with
    | true =>
      rw [convert_some_err lang ident bytes "" k h1]
      refine ⟨?_, "", ?_⟩
      · show bytes.length = min ((k - 2) / 2) bytes.length
        omega
      have hmin : min k 2 = 2 := by omega
      rw [hmin, List.take_length]
      simp [headerChunks, strJoin, strJoin_append, String.empty_append,
        String.append_empty, String.append_assoc]
    | false =>
      rcases lt_or_ge k (4 + 2 * bytes.length) with h2 | h2
      · obtain ⟨m, rfl⟩ : ∃ m, k = 2 + 2 * bytes.length + m :=
          ⟨k - (2 + 2 * bytes.length), by omega⟩
        have hm2 : m < 2 := by omega
        rw [convert_some_footer lang ident bytes "" (2 + 2 * bytes.length + m) h1 h2]
        refine ⟨?_, strJoin ((footerChunks lang ident).take m), ?_⟩
        · show bytes.length = min ((2 + 2 * bytes.length + m - 2) / 2) bytes.length
          omega
        have hmin : min (2 + 2 * bytes.length + m) 2 = 2 := by omega
        rw [hmin, List.take_length]
        have htop : (allChunks lang ident bytes).take (2 + 2 * bytes.length + m) =
            (headerChunks lang ident ++ loopChunks lang 0 bytes) ++
              (footerChunks lang ident).take m := by
          simp only [allChunks]
          rw [List.take_append_eq_append_take]
          have hlen : (headerChunks lang ident ++ loopChunks lang 0 bytes).length =
              2 + 2 * bytes.length := by
            simp [headerChunks, List.length_append, loopChunks_length]
            omega
          have harith : 2 + 2 * bytes.length + m - (2 + 2 * bytes.length) = m := by omega
          rw [List.take_of_length_le (by rw [hlen]; omega), hlen, harith]
        rw [htop]
        simp [headerChunks, strJoin, strJoin_append, String.empty_append,
          String.append_empty, String.append_assoc]
      · rw [convert_some_ok lang ident bytes "" k h2] at h
        simp at h

/-- Witness for C9: two-byte input, budget 5: the header and the first byte
are written, the second byte's separator is written but its literal fails. -/
theorem c9_count_on_error_witness :
    (convert nasmSpec "f" [1, 2] false ⟨"", some 5⟩).count = min ((5 - 2) / 2) 2
    ∧ ∃ rest : String,
        (convert nasmSpec "f" [1, 2] false ⟨"", some 5⟩).st.written =
          strJoin ((headerChunks nasmSpec "f").take (min 5 2)) ++
            (strJoin (loopChunks nasmSpec 0 ([1, 2].take
              ((convert nasmSpec "f" [1, 2] false ⟨"", some 5⟩).count))) ++ rest) :=
  c9_count_on_error nasmSpec "f" [1, 2] false 5 (by decide)

/-! ### Trace shape of `main` -/

theorem mainRest_shape (lang : LangSpec) (inName : String) (outRef : FRef)
    (bytes : List Nat) (inErr : Bool) (budget : Option Nat) :
    mainRest lang inName outRef bytes inErr budget =
      MEvent.convertEv (sanitize inName) lang.name ::
        ((cleanup FRef.inF outRef).map MEvent.fcloseEv ++
          [MEvent.exitEv
            (if (convert lang (sanitize inName) bytes inErr ⟨"", budget⟩).ret = -1 ∨
                (convert lang (sanitize inName) bytes inErr ⟨"", budget⟩).ret = -2
             then 1 else 0)]) := by
  show (MEvent.convertEv (sanitize inName) lang.name ::
      if (convert lang (sanitize inName) bytes inErr ⟨"", budget⟩).ret = -1 ∨
          (convert lang (sanitize inName) bytes inErr ⟨"", budget⟩).ret = -2
      then (cleanup FRef.inF outRef).map MEvent.fcloseEv ++ [MEvent.exitEv 1]
      else (cleanup FRef.inF outRef).map MEvent.fcloseEv ++ [MEvent.exitEv 0]) = _
  by_cases h : (convert lang (sanitize inName) bytes inErr ⟨"", budget⟩).ret = -1 ∨
      (convert lang (sanitize inName) bytes inErr ⟨"", budget⟩).ret = -2
  · rw [if_pos h, if_pos h]
  · rw [if_neg h, if_neg h]

theorem mainModel_three_args (p l fin : String) (lang : LangSpec)
    (hl : lookup_lang_spec l = some lang)
    (bytes : List Nat) (inErr : Bool) (budget : Option Nat) :
    mainModel [p, l, fin] true true bytes inErr budget =
      MEvent.openInEv fin true ::
        mainRest lang fin FRef.stdoutF bytes inErr budget := by
  unfold mainModel
  simp [hl]

theorem mainModel_four_args (p l fin fout : String) (lang : LangSpec)
    (hl : lookup_lang_spec l = some lang)
    (bytes : List Nat) (inErr : Bool) (budget : Option Nat) :
    mainModel [p, l, fin, fout] true true bytes inErr budget =
      MEvent.openInEv fin true :: MEvent.openOutEv fout true ::
        mainRest lang fin FRef.outF bytes inErr budget := by
  unfold mainModel
  simp [hl]

/-- C10: when the dialect resolves and the opens succeed, `main` opens the
input (and output) stream under the original, unmodified filename arguments,
and the in-place `.`/`-` replacement happens only afterwards: the convert
call receives the sanitized name while the open events carry the original
names, in both the 3-argument and 4-argument forms. -/
theorem c10_open_before_sanitize (p l fin fout : String) (lang : LangSpec)
    (hl : lookup_lang_spec l = some lang)
    (bytes : List Nat) (inErr : Bool) (budget : Option Nat) :
    (∃ rest : List MEvent,
      mainModel [p, l, fin] true true bytes inErr budget =
        MEvent.openInEv fin true ::
          MEvent.convertEv (sanitize fin) lang.name :: rest)
    ∧ (∃ rest : List MEvent,
      mainModel [p, l, fin, fout] true true bytes inErr budget =
        MEvent.openInEv fin true :: MEvent.openOutEv fout true ::
          MEvent.convertEv (sanitize fin) lang.name :: rest) := by
  constructor
  · exact ⟨(cleanup FRef.inF FRef.stdoutF).map MEvent.fcloseEv ++
        [MEvent.exitEv
          (if (convert lang (sanitize fin) bytes inErr ⟨"", budget⟩).ret = -1 ∨
              (convert lang (sanitize fin) bytes inErr ⟨"", budget⟩).ret = -2
           then 1 else 0)],
      by rw [mainModel_three_args p l fin lang hl bytes inErr budget,
        mainRest_shape lang fin FRef.stdoutF bytes inErr budget]⟩
  · exact ⟨(cleanup FRef.inF FRef.outF).map MEvent.fcloseEv ++
        [MEvent.exitEv
          (if (convert lang (sanitize fin) bytes inErr ⟨"", budget⟩).ret = -1 ∨
              (convert lang (sanitize fin) bytes inErr ⟨"", budget⟩).ret = -2
           then 1 else 0)],
      by rw [mainModel_four_args p l fin fout lang hl bytes inErr budget,
        mainRest_shape lang fin FRef.outF bytes inErr budget]⟩

/-- Witness for C10 with nasm and the input name login-screen.bmp. -/
theorem c10_open_before_sanitize_witness :
    ∃ rest : List MEvent,
      mainModel ["btoa", "nasm", "login-screen.bmp"] true true [] false none =
        MEvent.openInEv "login-screen.bmp" true ::
          MEvent.convertEv (sanitize "login-screen.bmp") nasmSpec.name :: rest :=
  (c10_open_before_sanitize "btoa" "nasm" "login-screen.bmp" "out.asm" nasmSpec
    (by decide) [] false none).1

/-- C5 counterexample: for the input filename `a/b.bin` the identifier the
program uses is `a/b_bin`, the sanitized full argument — not `b_bin`, the
identifier the claim's base-name derivation yields: the run's trace contains
a convert call with `a/b_bin` and none with `b_bin`. -/
theorem c5_basename_counterexample :
    sanitize "a/b.bin" = "a/b_bin"
    ∧ baseNameSpec "a/b.bin" = "b.bin"
    ∧ sanitize (baseNameSpec "a/b.bin") = "b_bin"
    ∧ MEvent.convertEv "a/b_bin" "nasm" ∈
        mainModel ["btoa", "nasm", "a/b.bin"] true true [] false none
    ∧ MEvent.convertEv "b_bin" "nasm" ∉
        mainModel ["btoa", "nasm", "a/b.bin"] true true [] false none
    ∧ ("a/b_bin" : String) ≠ "b_bin" := by decide

/-- C5 (amended): the identifier used in the data and size labels is derived
from the input filename argument exactly as given (directory components
included) by replacing every `.` and `-` with `_`; in particular
`login-screen.bmp` yields `login_screen_bmp`, data label
`login_screen_bmp_file` and size label `login_screen_bmp_file_size`. -/
theorem c5_identifier_derivation (p l fin : String) (lang : LangSpec)
    (hl : lookup_lang_spec l = some lang)
    (bytes : List Nat) (inErr : Bool) (budget : Option Nat) :
    MEvent.convertEv (sanitize fin) lang.name ∈
      mainModel [p, l, fin] true true bytes inErr budget
    ∧ sanitize "login-screen.bmp" = "login_screen_bmp"
    ∧ dataLabel "login_screen_bmp" = "login_screen_bmp_file:\n"
    ∧ sizeLabel nasmSpec "login_screen_bmp" =
        "login_screen_bmp_file_size: dd $-login_screen_bmp_file\n"
    ∧ sizeLabel asSpec "login_screen_bmp" =
        "login_screen_bmp_file_size: .long .-login_screen_bmp_file\n" := by
  refine ⟨?_, by decide, by decide, by decide, by decide⟩
  rw [mainModel_three_args p l fin lang hl bytes inErr budget,
    mainRest_shape lang fin FRef.stdoutF bytes inErr budget]
  simp

/-- Witness for C5 (amended) with nasm and login-screen.bmp. -/
theorem c5_identifier_derivation_witness :
    MEvent.convertEv (sanitize "login-screen.bmp") nasmSpec.name ∈
      mainModel ["btoa", "nasm", "login-screen.bmp"] true true [] false none :=
  (c5_identifier_derivation "btoa" "nasm" "login-screen.bmp" nasmSpec (by decide)
    [] false none).1

/-- C8: on the output-open-failure path (4 arguments, output `fopen` returns
NULL) `main` calls `cleanup(in, out)` with `out == NULL`; since NULL is not
`stdout`, `cleanup` runs `fclose(out)` on the never-opened NULL handle
before closing the input — the trace closes `FRef.nullF`.  This contradicts
the claim that cleanup is well-defined (no close of an unopened handle) on
every exit path, so the code, not the claim, is at fault. -/
theorem c8_fclose_null :
    mainModel ["btoa", "nasm", "in.bin", "out.asm"] true false [] false none =
      [MEvent.openInEv "in.bin" true, MEvent.openOutEv "out.asm" false,
       MEvent.fcloseEv FRef.nullF, MEvent.fcloseEv FRef.inF, MEvent.exitEv 1]
    ∧ FRef.nullF ∈ cleanup FRef.inF FRef.nullF := by decide
